import Mathlib

/-!
Verification of the IK job-list core (src/ik/src/joblist.c).

The C code is embedded shallowly:

* `ik_node` trees become the mutual inductive `Ik.Tree` / `Ik.Forest`;
  a node carries its guid, optional effector and optional algorithm, and
  the ordered list of children.  Upward (`node->parent`) walks are
  modelled by threading the list of ancestor node data (parent first).
* the `btree_t` of marks becomes an association list `Ik.Marked`.
* allocation failure is modelled by an oracle `Nat → Bool`: the k-th
  allocating call (vector_init / vector_push / btree_init /
  btree_insert_or_get on a fresh key / ik_subtree_init /
  ik_solver_create) succeeds iff the oracle is true at the running
  allocation counter, which is threaded through the functions.
* the unbounded `while (1)` loop of `mark_nodes` becomes a fuel-indexed
  function returning `none` when the fuel is exhausted: a result of
  `none` for every fuel means the C loop does not terminate.
* a failed `assert` / NULL-pointer dereference (pushing a leaf onto a
  NULL `current_subtree`) is modelled as an explicit `crash` outcome.

`ikret` status codes: the enum lives in a header that is not part of
src/.  Modelled from the spec: success is 0 and the named error codes
are distinct nonzero values; the joblist code additionally returns the
literal -1 from its static helpers.
-/

namespace Ik

/-- `enum ik_marking` from joblist.c. -/
inductive Marking where
  | SECTION
  | BEGIN
  | END
  | BEGIN_AND_END
deriving DecidableEq, Repr

/-- `struct ik_effector`: only the chain length is relevant here. -/
structure Effector where
  chain_length : Nat
deriving DecidableEq, Repr

/-- The per-node fields of `struct ik_node` consulted by joblist.c:
guid, optional effector, optional algorithm (identity only). -/
structure NodeData where
  guid : Nat
  effector : Option Effector
  algorithm : Option Nat
deriving DecidableEq, Repr

mutual
/-- A node of the skeleton tree: its data plus its ordered children. -/
inductive Tree where
  | mk (data : NodeData) (children : Forest)
/-- An ordered list of sibling subtrees. -/
inductive Forest where
  | nil
  | cons (t : Tree) (ts : Forest)
end

def Tree.data : Tree → NodeData
  | .mk d _ => d

def Tree.children : Tree → Forest
  | .mk _ cs => cs

/-- `ik_node_child_count(node) > 0`. -/
def Forest.isNil : Forest → Bool
  | .nil => true
  | .cons _ _ => false

/-- Allocation oracle: whether the k-th allocation succeeds. -/
abbrev Alloc := Nat → Bool

def allocAlways : Alloc := fun _ => true

def allocNever : Alloc := fun _ => false

/-- `ikret` success value `IK_OK`. -/
def IK_OK : Int := 0

/-- Modelled from the spec: `IK_ERR_OUT_OF_MEMORY`, a status distinct
from success (its enum declaration is outside src/). -/
def IK_ERR_OUT_OF_MEMORY : Int := -2

/-- Modelled from the spec: `IK_ERR_NO_EFFECTORS_FOUND`, a status
distinct from success (its enum declaration is outside src/). -/
def IK_ERR_NO_EFFECTORS_FOUND : Int := -3

/-- One entry of the `effector_nodes` vector: the node (with its
subtree, so children/effector/algorithm are readable) together with the
data of its ancestors, parent first. -/
abbrev EffectorEntry := Tree × List NodeData

mutual
/-- `find_all_effector_nodes`: depth-first, children before the node
itself; pushes every node whose effector is non-NULL.  Each
`vector_push` consumes one allocation tick; on failure the C function
returns -1. -/
def find_all_effector_nodes (oracle : Alloc) (t : Tree) (anc : List NodeData)
    (k : Nat) : Except Int (List EffectorEntry × Nat) :=
  match t with
  | .mk d cs =>
    match find_all_effector_nodes_forest oracle cs (d :: anc) k with
    | .error s => .error s
    | .ok (l, k') =>
      if d.effector.isSome then
        if oracle k' then .ok (l ++ [(.mk d cs, anc)], k' + 1) else .error (-1)
      else .ok (l, k')
/-- Folds `find_all_effector_nodes` over a list of siblings, in order. -/
def find_all_effector_nodes_forest (oracle : Alloc) (cs : Forest)
    (anc : List NodeData) (k : Nat) : Except Int (List EffectorEntry × Nat) :=
  match cs with
  | .nil => .ok ([], k)
  | .cons t ts =>
    match find_all_effector_nodes oracle t anc k with
    | .error s => .error s
    | .ok (l, k') =>
      match find_all_effector_nodes_forest oracle ts anc k' with
      | .error s => .error s
      | .ok (l', k'') => .ok (l ++ l', k'')
end

/-- `int chain_length_counter = (int)effector->chain_length != 0 ?
(int)effector->chain_length : -1;`.  The C code dereferences the
effector unconditionally; entries produced by the scanner always carry
one, so the `none` case is unreachable from `ik_joblist_update`. -/
def chain_counter_init : Option Effector → Int
  | some e => if e.chain_length = 0 then -1 else (e.chain_length : Int)
  | none => -1

/-- `mark_idx`: `(is_end_of_chain << 0) | (has_children << 1) |
(has_effector << 2) | (has_algorithm << 3)`. -/
def markIdx (e c f a : Bool) : Nat :=
  (cond e 1 0) + (cond c 2 0) + (cond f 4 0) + (cond a 8 0)

/-- The `lookup_mark[16]` array; the slots holding `(enum ik_marking)-1`
(indices 0, 1, 8, 9) become `none`. -/
def lookupMark : Nat → Option Marking
  | 2 => some .SECTION
  | 3 => some .BEGIN
  | 4 => some .END
  | 5 => some .END
  | 6 => some .BEGIN_AND_END
  | 7 => some .BEGIN_AND_END
  | 10 => some .SECTION
  | 11 => some .BEGIN
  | 12 => some .BEGIN
  | 13 => some .BEGIN_AND_END
  | 14 => some .BEGIN_AND_END
  | 15 => some .BEGIN_AND_END
  | _ => none

/-- The `case 0: case 1: case 8: case 9:` fatal branch of the switch in
`mark_nodes` ("Found a leaf node with no effector attached"). -/
def isFatalIdx (i : Nat) : Bool :=
  i == 0 || i == 1 || i == 8 || i == 9

/-- The mark map `btree_t marked`, keyed by node guid. -/
abbrev Marked := List (Nat × Marking)

/-- `btree_find` on the mark map. -/
def btreeFind : Marked → Nat → Option Marking
  | [], _ => none
  | (g', v) :: r, g => if g' = g then some v else btreeFind r g

/-- Overwrite the value stored for a present key. -/
def btreeSet : Marked → Nat → Marking → Marked
  | [], _, _ => []
  | (g', v') :: r, g, v =>
    if g' = g then (g', v) :: r else (g', v') :: btreeSet r g v

/-- The `btree_insert_or_get` switch of `mark_nodes`: if the key exists
the existing mark is overwritten only when the new mark is
`MARK_SECTION`; otherwise the new mark is inserted (consuming one
allocation tick; failure yields the function's `return -1`). -/
def processMark (oracle : Alloc) (m : Marked) (g : Nat) (new : Marking)
    (k : Nat) : Except Int (Marked × Nat) :=
  match btreeFind m g with
  | some _ =>
    .ok ((if new = .SECTION then btreeSet m g .SECTION else m), k)
  | none =>
    if oracle k then .ok ((g, new) :: m, k) else .error (-1)

/-- `is_end_of_chain()`: `chain_length_counter == 0 || node->parent == NULL`. -/
def is_end_of_chain (counter : Int) (anc : List NodeData) : Bool :=
  counter == 0 || anc.isEmpty

/-- The `while (1)` loop body of `mark_nodes`, iterated with fuel.
Faithful to the source: the loop classifies the current node, merges
the mark into the map, and exits when `chain_length_counter == 0 ||
node->parent == NULL` — but it never executes `chain_length_counter--`
or `node = node->parent`, so the state of one iteration is the state of
the next.  `none` means the fuel ran out (the loop did not terminate).
A result `some (.error s)` is `mark_nodes` returning `s` (always -1):
the fatal leaf case or a failed `btree_insert_or_get`. -/
def mark_nodes_walk (oracle : Alloc) : Nat → Marked → Tree → List NodeData →
    Int → Nat → Option (Except Int (Marked × Nat))
  | 0, _, _, _, _, _ => none
  | fuel + 1, m, t, anc, counter, k =>
    let e := is_end_of_chain counter anc
    let c := !(Tree.children t).isNil
    let f := (Tree.data t).effector.isSome
    let a := (Tree.data t).algorithm.isSome
    let idx := markIdx e c f a
    if isFatalIdx idx then some (.error (-1))
    else
      match lookupMark idx with
      | none => some (.error (-1))
      | some nm =>
        match processMark oracle m (Tree.data t).guid nm k with
        | .error s => some (.error s)
        | .ok (m', k') =>
          if is_end_of_chain counter anc then some (.ok (m', k'))
          else mark_nodes_walk oracle fuel m' t anc counter k'

/-- `mark_nodes`: runs the chain walk for every collected effector node
in order, threading the mark map and the allocation counter. -/
def mark_nodes (oracle : Alloc) (fuel : Nat) : Marked → List EffectorEntry →
    Nat → Option (Except Int (Marked × Nat))
  | m, [], k => some (.ok (m, k))
  | m, (t, anc) :: rest, k =>
    match mark_nodes_walk oracle fuel m t anc
        (chain_counter_init (Tree.data t).effector) k with
    | none => none
    | some (.error s) => some (.error s)
    | some (.ok (m', k')) => mark_nodes oracle fuel m' rest k'

/-- The ancestor walk of `new_solver`: `for (node = subtree->root;
node->parent != NULL; node = node->parent) if (node->algorithm != NULL)
...` — it tests the subtree root itself first (when it has a parent)
and stops before testing the tree root. -/
def resolve_algorithm : NodeData → List NodeData → Option Nat
  | _, [] => none
  | nd, parent :: rest =>
    match nd.algorithm with
    | some alg => some alg
    | none => resolve_algorithm parent rest

/-- A solver job as observable through the job list: the subtree root's
guid, the subtree's leaf guids in push order, and the governing
algorithm. -/
structure Job where
  rootGuid : Nat
  leaves : List Nat
  alg : Nat
deriving DecidableEq, Repr

/-- Result of the partitioning phase.  `crash` models the failed
`assert(current_subtree != NULL)` / NULL dereference when a node marked
`MARK_END` or `MARK_BEGIN_AND_END` is reached with a NULL
`current_subtree`; `fail` is a clean `return -1`.  Both carry the jobs
already pushed onto `joblist->solvers` (the C code does not remove
them).  `ok` additionally carries the updated leaf list of the
enclosing subtree and the allocation counter. -/
inductive PRes where
  | crash (jobs : List Job)
  | fail (jobs : List Job)
  | ok (jobs : List Job) (ctx : Option (List Nat)) (k : Nat)
deriving DecidableEq, Repr

mutual
/-- `alloc_solvers`: recursive descent carrying the enclosing subtree's
leaf list (`none` = NULL `current_subtree`).  The body is
`if (mark) switch (*mark) ...`, factored into `alloc_dispatch`. -/
def alloc_solvers (marks : Marked) (oracle : Alloc) (ctx : Option (List Nat))
    (t : Tree) (anc : List NodeData) (k : Nat) : PRes :=
  match t with
  | .mk d cs =>
    alloc_dispatch marks oracle ctx d cs anc k (btreeFind marks d.guid)
termination_by 2 * sizeOf t + 1
decreasing_by all_goals (simp_wf; omega)
/-- The `if (mark) switch (*mark)` of `alloc_solvers`: an unmarked node
prunes its whole branch; `MARK_SECTION` passes through; `MARK_END`
appends the node to the enclosing subtree's leaves (NULL context:
failed assert, modelled as crash; the `vector_push` is one tick) and
then passes through; `MARK_BEGIN` starts a new subtree;
`MARK_BEGIN_AND_END` appends the leaf to the enclosing subtree first
and then starts a new subtree. -/
def alloc_dispatch (marks : Marked) (oracle : Alloc) (ctx : Option (List Nat))
    (d : NodeData) (cs : Forest) (anc : List NodeData) (k : Nat) :
    Option Marking → PRes
  | none => .ok [] ctx k
  | some .SECTION => alloc_forest marks oracle ctx cs (d :: anc) k
  | some .END =>
    match ctx with
    | none => .crash []
    | some ls =>
      if oracle k then
        alloc_forest marks oracle (some (ls ++ [d.guid])) cs (d :: anc) (k + 1)
      else .fail []
  | some .BEGIN =>
    match recurse_with_new_subtree marks oracle d cs anc k with
    | .crash js => .crash js
    | .fail js => .fail js
    | .ok js _ k' => .ok js ctx k'
  | some .BEGIN_AND_END =>
    match ctx with
    | none => .crash []
    | some ls =>
      if oracle k then
        match recurse_with_new_subtree marks oracle d cs anc (k + 1) with
        | .crash js => .crash js
        | .fail js => .fail js
        | .ok js _ k' => .ok js (some (ls ++ [d.guid])) k'
      else .fail []
termination_by 2 * sizeOf cs + 2
decreasing_by all_goals simp_wf
/-- `NODE_FOR_EACH` of `alloc_solvers` / `recurse_with_new_subtree`:
processes the siblings in order, threading leaves, jobs and counter. -/
def alloc_forest (marks : Marked) (oracle : Alloc) (ctx : Option (List Nat))
    (cs : Forest) (anc : List NodeData) (k : Nat) : PRes :=
  match cs with
  | .nil => .ok [] ctx k
  | .cons t ts =>
    match alloc_solvers marks oracle ctx t anc k with
    | .crash js => .crash js
    | .fail js => .fail js
    | .ok js ctx' k' =>
      match alloc_forest marks oracle ctx' ts anc k' with
      | .crash js' => .crash (js ++ js')
      | .fail js' => .fail (js ++ js')
      | .ok js' ctx'' k'' => .ok (js ++ js') ctx'' k''
termination_by 2 * sizeOf cs
decreasing_by all_goals (simp_wf <;> omega)
/-- `recurse_with_new_subtree` on a node with data `d`, children `cs`
and ancestors `anc`: ik_subtree_init (one tick), process all children
with the fresh subtree as context, then `new_solver` (the algorithm
walk, then `ik_solver_create`, one tick) and the `vector_push` onto
`joblist->solvers` (one tick).  The job is appended after every job
produced inside the children. -/
def recurse_with_new_subtree (marks : Marked) (oracle : Alloc) (d : NodeData)
    (cs : Forest) (anc : List NodeData) (k : Nat) : PRes :=
  if oracle k then
    match alloc_forest marks oracle (some []) cs (d :: anc) (k + 1) with
    | .crash js => .crash js
    | .fail js => .fail js
    | .ok js ls k' =>
      match resolve_algorithm d anc with
      | none => .fail js
      | some alg =>
        if oracle k' then
          if oracle (k' + 1) then
            .ok (js ++ [⟨d.guid, ls.getD [], alg⟩]) none (k' + 2)
          else .fail js
        else .fail js
  else .fail []
termination_by 2 * sizeOf cs + 1
decreasing_by all_goals simp_wf
end

/-- Observable outcome of `ik_joblist_update`: a returned status with
the final contents of `joblist->solvers`, or a crash (failed assert /
NULL dereference) with the contents at that moment. -/
inductive UResult where
  | ret (status : Int) (jl : List Job)
  | crash (jl : List Job)
deriving DecidableEq, Repr

/-- `ik_joblist_update`: vector_init (tick 0), scan, early no-effectors
return, btree_init (one tick), mark_nodes, then — only after marking
succeeded — the old solvers are freed and cleared, and alloc_solvers
rebuilds the list starting at the root with a NULL current subtree.
`prev` is the previous contents of `joblist->solvers`; `none` means the
call never returns (mark_nodes looped forever). -/
def ik_joblist_update (fuel : Nat) (oracle : Alloc) (root : Tree)
    (prev : List Job) : Option UResult :=
  if oracle 0 then
    match find_all_effector_nodes oracle root [] 1 with
    | .error s => some (.ret s prev)
    | .ok (effs, k) =>
      if effs.isEmpty then some (.ret IK_ERR_NO_EFFECTORS_FOUND prev)
      else
        if oracle k then
          match mark_nodes oracle fuel [] effs (k + 1) with
          | none => none
          | some (.error s) => some (.ret s prev)
          | some (.ok (marks, k')) =>
            match alloc_solvers marks oracle none root [] k' with
            | .crash js => some (.crash js)
            | .fail js => some (.ret (-1) js)
            | .ok js _ _ => some (.ret IK_OK js)
        else some (.ret IK_ERR_OUT_OF_MEMORY prev)
  else some (.ret IK_ERR_OUT_OF_MEMORY prev)

/-- The spec's 16-row mark table (section 4.2), rows keyed by
`(E, C, F, A)` exactly as printed there; `none` stands for the FATAL
rows.  This definition follows the spec's words, for comparison with
the code's `lookup_mark` table. -/
def specTable : Bool → Bool → Bool → Bool → Option Marking
  | false, false, false, false => none
  | true,  false, false, false => none
  | false, true,  false, false => some .SECTION
  | true,  true,  false, false => some .BEGIN
  | false, false, true,  false => some .END
  | true,  false, true,  false => some .END
  | false, true,  true,  false => some .BEGIN_AND_END
  | true,  true,  true,  false => some .BEGIN_AND_END
  | false, false, false, true  => none
  | true,  false, false, true  => none
  | false, true,  false, true  => some .SECTION
  | true,  true,  false, true  => some .BEGIN
  | false, false, true,  true  => some .BEGIN
  | true,  false, true,  true  => some .BEGIN_AND_END
  | false, true,  true,  true  => some .BEGIN_AND_END
  | true,  true,  true,  true  => some .BEGIN_AND_END

/-- First non-null algorithm in a list of node data. -/
def first_algorithm : List NodeData → Option Nat
  | [] => none
  | p :: r =>
    match p.algorithm with
    | some alg => some alg
    | none => first_algorithm r

/-- The resolution procedure as claim C4 words it: walk through the
proper ancestors only (never the subtree root node itself), up to and
including the tree root.  This definition follows the claim's words,
for comparison with the code's `resolve_algorithm`. -/
def claim_resolve (_nd : NodeData) (anc : List NodeData) : Option Nat :=
  first_algorithm anc

/-- The walk the code actually performs, stated as a search: all nodes
of the chain `subtree root :: ancestors` except the last one (the tree
root, whose `parent` is NULL, is never tested). -/
def amended_resolve (nd : NodeData) (anc : List NodeData) : Option Nat :=
  first_algorithm ((nd :: anc).dropLast)

/-- C4 counterexample: the claim says the governing algorithm is found
by searching the proper ancestors up to and including the tree root,
never the subtree root itself.  On a two-node tree the code does the
opposite on both ends: with the algorithm on the subtree root (guid 1)
and none on the tree root (guid 0) the code finds it and the claim's
procedure fails; with the algorithm only on the tree root the code
fails and the claim's procedure finds it. -/
theorem C4_counterexample_resolve :
    resolve_algorithm ⟨1, none, some 7⟩ [⟨0, none, none⟩] ≠
      claim_resolve ⟨1, none, some 7⟩ [⟨0, none, none⟩] ∧
    resolve_algorithm ⟨1, none, some 7⟩ [⟨0, none, none⟩] = some 7 ∧
    claim_resolve ⟨1, none, some 7⟩ [⟨0, none, none⟩] = none ∧
    resolve_algorithm ⟨2, none, none⟩ [⟨0, none, some 9⟩] = none ∧
    claim_resolve ⟨2, none, none⟩ [⟨0, none, some 9⟩] = some 9 := by
  decide

/-- C4 (amended): `new_solver` resolves the governing algorithm by
testing, from the subtree root upward, exactly the nodes that have a
parent — the subtree root itself first, and never the tree root. -/
theorem C4_resolve_walk (nd : NodeData) (anc : List NodeData) :
    resolve_algorithm nd anc = amended_resolve nd anc := by
  induction anc generalizing nd with
  | nil => simp [resolve_algorithm, amended_resolve, first_algorithm]
  | cons p r ih =>
    rw [resolve_algorithm, amended_resolve,
        List.dropLast_cons_of_ne_nil (List.cons_ne_nil p r), first_algorithm]
    cases nd.algorithm with
    | none => simpa [amended_resolve] using ih p
    | some alg => rfl

/-- C6 counterexample: the claim lists `(A,F,C,E) = 0011` (no
algorithm, no effector, has children, end of walk) among the SECTION
combinations, but the code's table yields BEGIN there (row `|1|1|0|0|`
of the spec's own table). -/
theorem C6_counterexample_begin_not_section :
    lookupMark (markIdx true true false false) ≠ some Marking.SECTION ∧
    lookupMark (markIdx true true false false) = some Marking.BEGIN := by
  decide

/-- C6 (amended): the mark computed for a visited node agrees with the
spec's 16-row table at every combination of the four booleans, and the
fatal branch is taken exactly when the node has no children and no
effector. -/
theorem C6_mark_table_matches_spec :
    ∀ e c f a : Bool,
      lookupMark (markIdx e c f a) = specTable e c f a ∧
      isFatalIdx (markIdx e c f a) = (!c && !f) := by
  decide

/-- Looking up a key after overwriting it. -/
theorem btreeFind_set (m : Marked) (g : Nat) (v : Marking) :
    ∀ old, btreeFind m g = some old → btreeFind (btreeSet m g v) g = some v := by
  induction m with
  | nil => intro old h; simp [btreeFind] at h
  | cons hd tl ih =>
    intro old h
    obtain ⟨g', v'⟩ := hd
    by_cases hg : g' = g
    · simp [btreeSet, hg, btreeFind]
    · simp only [btreeFind, btreeSet, hg, if_false] at h ⊢
      exact ih old h

/-- C7: merging a newly computed mark into the map when the node is
already marked: a new `MARK_SECTION` overwrites the stored mark
unconditionally, any other new mark leaves the map unchanged, and no
allocation happens. -/
theorem C7_merge_rule (oracle : Alloc) (m : Marked) (g : Nat)
    (old new : Marking) (k : Nat) (h : btreeFind m g = some old) :
    ∃ m', processMark oracle m g new k = .ok (m', k) ∧
      (new = .SECTION → btreeFind m' g = some .SECTION) ∧
      (new ≠ .SECTION → m' = m) := by
  refine ⟨if new = .SECTION then btreeSet m g .SECTION else m, ?_, ?_, ?_⟩
  · rw [processMark, h]
  · intro hs; simp only [hs, if_true]; exact btreeFind_set m g .SECTION old h
  · intro hs; simp [hs]

/-- C7 witness: concrete merges — a SECTION over a stored BEGIN, and an
END over a stored BEGIN. -/
theorem C7_merge_rule_witness :
    (∃ m', processMark allocAlways [(0, Marking.BEGIN)] 0 Marking.SECTION 5 =
        .ok (m', 5) ∧
      (Marking.SECTION = .SECTION → btreeFind m' 0 = some .SECTION) ∧
      (Marking.SECTION ≠ .SECTION → m' = [(0, Marking.BEGIN)])) ∧
    (∃ m', processMark allocAlways [(0, Marking.BEGIN)] 0 Marking.END 5 =
        .ok (m', 5) ∧
      (Marking.END = .SECTION → btreeFind m' 0 = some .SECTION) ∧
      (Marking.END ≠ .SECTION → m' = [(0, Marking.BEGIN)])) :=
  ⟨C7_merge_rule allocAlways [(0, Marking.BEGIN)] 0 Marking.BEGIN Marking.SECTION 5 rfl,
   C7_merge_rule allocAlways [(0, Marking.BEGIN)] 0 Marking.BEGIN Marking.END 5 rfl⟩

/-- When the counter is nonzero and a parent exists, the loop's exit
test is false. -/
theorem is_end_of_chain_false {counter : Int} {anc : List NodeData}
    (hc : counter ≠ 0) (ha : anc ≠ []) :
    is_end_of_chain counter anc = false := by
  cases anc with
  | nil => exact absurd rfl ha
  | cons p r => simp [is_end_of_chain, hc]

/-- A node carrying an effector is never classified fatal, and its
table slot is populated. -/
theorem lookupMark_effector :
    ∀ e c a : Bool,
      isFatalIdx (markIdx e c true a) = false ∧
        (lookupMark (markIdx e c true a)).isSome = true := by
  decide

/-- With every allocation succeeding, the merge step always succeeds
and does not advance the allocation counter beyond the inserting tick. -/
theorem processMark_always_ok (m : Marked) (g : Nat) (nm : Marking) (k : Nat) :
    ∃ m', processMark allocAlways m g nm k = .ok (m', k) := by
  rw [processMark]
  cases btreeFind m g with
  | some v => exact ⟨_, rfl⟩
  | none => exact ⟨_, rfl⟩

/-- The central defect: the `while (1)` loop of `mark_nodes` never
executes `chain_length_counter--; node = node->parent;`, so for any
effector node that is not the tree root (and whose counter starts
nonzero, which is always the case) the loop never terminates — every
iteration re-examines the same node with the same counter.  Stated for
the oracle that never fails an allocation. -/
theorem mark_nodes_walk_stuck :
    ∀ (fuel : Nat) (m : Marked) (t : Tree) (anc : List NodeData)
      (counter : Int) (k : Nat),
      (Tree.data t).effector.isSome = true → anc ≠ [] → counter ≠ 0 →
      mark_nodes_walk allocAlways fuel m t anc counter k = none := by
  intro fuel
  induction fuel with
  | zero => intro m t anc counter k _ _ _; rfl
  | succ n ih =>
    intro m t anc counter k hf ha hc
    have he : is_end_of_chain counter anc = false := is_end_of_chain_false hc ha
    obtain ⟨hnf, hsome⟩ :=
      lookupMark_effector false (!(Tree.children t).isNil)
        ((Tree.data t).algorithm.isSome)
    obtain ⟨nm, hnm⟩ := Option.isSome_iff_exists.mp hsome
    obtain ⟨m', hpm⟩ :=
      processMark_always_ok m (Tree.data t).guid nm k
    simp only [mark_nodes_walk, he, hf, hnf, hnm, hpm, if_false,
      Bool.false_eq_true]
    exact ih m' t anc counter k hf ha hc

/-- Data of the root of the two-node chain (guid 0, no effector, no
algorithm). -/
def chainRootData : NodeData := ⟨0, none, none⟩

/-- The leaf of the two-node chain: guid 1, an effector with unbounded
chain length (0), no algorithm. -/
def chainLeaf : Tree := .mk ⟨1, some ⟨0⟩, none⟩ .nil

/-- A linear chain of two nodes, the effector on the leaf. -/
def chainRoot : Tree := .mk chainRootData (.cons chainLeaf .nil)

/-- C1: the chain-marking walk does not terminate.  The claim says the
walk advances one parent per step, decrementing the counter, and stops
at the root or at counter zero; the loop in the source contains no such
advance, so on the two-node chain (effector on the leaf, chain length
0, i.e. unbounded) the walk re-examines the leaf forever: it returns
`none` (fuel exhausted) for every fuel, even with every allocation
succeeding. -/
theorem C1_mark_walk_never_terminates (fuel : Nat) (m : Marked) (k : Nat) :
    mark_nodes_walk allocAlways fuel m chainLeaf [chainRootData]
      (chain_counter_init (Tree.data chainLeaf).effector) k = none :=
  mark_nodes_walk_stuck fuel m chainLeaf [chainRootData] _ k rfl
    (by simp) (by decide)

/-- C3: on a linear chain of two nodes with a single unbounded effector
on the leaf, `ik_joblist_update` never returns (the marking pass loops
forever), instead of producing one subtree rooted at the tree root:
for every fuel the model yields `none`. -/
theorem C3_update_diverges_on_two_node_chain (fuel : Nat) (prev : List Job) :
    ik_joblist_update fuel allocAlways chainRoot prev = none := by
  have hw :=
    mark_nodes_walk_stuck fuel [] chainLeaf [chainRootData] (-1) 3 rfl
      (by simp) (by decide)
  simp only [chainLeaf, chainRootData] at hw
  simp [ik_joblist_update, allocAlways, chainRoot, chainLeaf, chainRootData,
    find_all_effector_nodes, find_all_effector_nodes_forest, mark_nodes,
    chain_counter_init, Tree.data, hw]

/-- A childless node with no effector and no algorithm (guid 5). -/
def leafNoEffector : Tree := .mk ⟨5, none, none⟩ .nil

/-- A childless node with an effector (chain length 0) and no
algorithm (guid 6). -/
def leafWithEffector : Tree := .mk ⟨6, some ⟨0⟩, none⟩ .nil

/-- C5 counterexample: `mark_nodes` exits with the same value -1 both
in its fatal invalid-tree-configuration branch (a visited childless
node without an effector) and in its allocation-failure branch
(`btree_insert_or_get` failing), so `ik_joblist_update`, which passes
that value through as its status, cannot return distinct statuses for
the two outcomes. -/
theorem C5_counterexample_shared_error_value :
    mark_nodes_walk allocAlways 1 [] leafNoEffector [] (-1) 0 =
      some (.error (-1)) ∧
    mark_nodes_walk allocNever 1 [] leafWithEffector [] (-1) 0 =
      some (.error (-1)) := by
  constructor <;> rfl

mutual
/-- A tree without any effector anywhere. -/
def no_eff_tree : Tree → Bool
  | .mk d cs => d.effector.isNone && no_eff_forest cs
/-- A forest without any effector anywhere. -/
def no_eff_forest : Forest → Bool
  | .nil => true
  | .cons t ts => no_eff_tree t && no_eff_forest ts
end

mutual
/-- Scanning an effector-free tree collects nothing and allocates
nothing. -/
theorem find_all_effector_nodes_no_eff (oracle : Alloc) (t : Tree)
    (anc : List NodeData) (k : Nat) (h : no_eff_tree t = true) :
    find_all_effector_nodes oracle t anc k = .ok ([], k) := by
  cases t with
  | mk d cs =>
    simp only [no_eff_tree, Bool.and_eq_true] at h
    rw [find_all_effector_nodes,
      find_all_effector_nodes_forest_no_eff oracle cs (d :: anc) k h.2]
    have h1 : d.effector = none := Option.isNone_iff_eq_none.mp h.1
    simp [h1]
/-- Scanning an effector-free forest collects nothing and allocates
nothing. -/
theorem find_all_effector_nodes_forest_no_eff (oracle : Alloc) (cs : Forest)
    (anc : List NodeData) (k : Nat) (h : no_eff_forest cs = true) :
    find_all_effector_nodes_forest oracle cs anc k = .ok ([], k) := by
  cases cs with
  | nil => rw [find_all_effector_nodes_forest]
  | cons t ts =>
    simp only [no_eff_forest, Bool.and_eq_true] at h
    rw [find_all_effector_nodes_forest]
    simp [find_all_effector_nodes_no_eff oracle t anc k h.1,
      find_all_effector_nodes_forest_no_eff oracle ts anc k h.2]
end

/-- C8: on any tree containing zero effector nodes — provided the very
first allocation (the vector_init of the effector list) succeeds —
`ik_joblist_update` returns the distinguished no-effectors status and
the job list keeps exactly its previous contents. -/
theorem C8_no_effectors_leaves_joblist (fuel : Nat) (oracle : Alloc)
    (root : Tree) (prev : List Job) (h : no_eff_tree root = true)
    (h0 : oracle 0 = true) :
    ik_joblist_update fuel oracle root prev =
      some (.ret IK_ERR_NO_EFFECTORS_FOUND prev) := by
  rw [ik_joblist_update, if_pos h0,
    find_all_effector_nodes_no_eff oracle root [] 1 h]
  rfl

/-- C8 witness: a single effector-free node, with a nonempty previous
job list, which is returned unchanged. -/
theorem C8_no_effectors_witness :
    no_eff_tree leafNoEffector = true ∧ allocAlways 0 = true ∧
    ik_joblist_update 1 allocAlways leafNoEffector [⟨7, [], 1⟩] =
      some (.ret IK_ERR_NO_EFFECTORS_FOUND [⟨7, [], 1⟩]) :=
  ⟨rfl, rfl,
   C8_no_effectors_leaves_joblist 1 allocAlways leafNoEffector [⟨7, [], 1⟩]
     rfl rfl⟩

/-- A tree consisting only of its root, which carries an effector
(chain length 0) and no algorithm. -/
def rootOnlyEffector : Tree := .mk ⟨0, some ⟨0⟩, none⟩ .nil

/-- A tree consisting only of its root, which carries an effector
(chain length 0) and an algorithm. -/
def rootEffectorAlgorithm : Tree := .mk ⟨0, some ⟨0⟩, some 3⟩ .nil

/-- C2 counterexample: a rebuild that fails after effectors were found
and does not leave the previous job sequence untouched.  With an
effector on the root, marking succeeds (root marked `MARK_END`), the
old solver jobs are freed and the vector cleared, and then the
partition phase crashes (NULL `current_subtree` dereference).  The
previous one-job sequence is gone: the observable job list at the
failure point is empty. -/
theorem C2_counterexample_failed_rebuild_discards_jobs :
    ik_joblist_update 2 allocAlways rootOnlyEffector [⟨7, [], 1⟩] =
      some (.crash []) ∧
    ([] : List Job) ≠ [⟨7, [], 1⟩] := by
  constructor
  · simp [ik_joblist_update, allocAlways, rootOnlyEffector,
      find_all_effector_nodes, find_all_effector_nodes_forest, mark_nodes,
      mark_nodes_walk, chain_counter_init, is_end_of_chain, markIdx,
      isFatalIdx, lookupMark, processMark, btreeFind, alloc_solvers,
      alloc_dispatch, Tree.data, Tree.children, Forest.isNil]
  · simp

/-- C10: when the tree root itself carries an effector it is marked
`MARK_END` or `MARK_BEGIN_AND_END`, and `alloc_solvers` — invoked by
`ik_joblist_update` with `current_subtree == NULL` — reaches the
leaf-append with a NULL subtree context: `assert(current_subtree !=
NULL)` fails and the push dereferences NULL.  Shown both at the
`alloc_solvers` entry (root marked `MARK_BEGIN_AND_END`, NULL context)
and end-to-end through `ik_joblist_update`. -/
theorem C10_root_effector_crashes_on_null_subtree :
    alloc_solvers [(0, Marking.BEGIN_AND_END)] allocAlways none
      rootEffectorAlgorithm [] 4 = .crash [] ∧
    ik_joblist_update 2 allocAlways rootEffectorAlgorithm [] =
      some (.crash []) := by
  constructor
  · simp [alloc_solvers, alloc_dispatch, rootEffectorAlgorithm, btreeFind]
  · simp [ik_joblist_update, allocAlways, rootEffectorAlgorithm,
      find_all_effector_nodes, find_all_effector_nodes_forest, mark_nodes,
      mark_nodes_walk, chain_counter_init, is_end_of_chain, markIdx,
      isFatalIdx, lookupMark, processMark, btreeFind, alloc_solvers,
      alloc_dispatch, Tree.data, Tree.children, Forest.isNil]

mutual
/-- All guids occurring in a tree. -/
def treeGuids : Tree → List Nat
  | .mk d cs => d.guid :: forestGuids cs
/-- All guids occurring in a forest. -/
def forestGuids : Forest → List Nat
  | .nil => []
  | .cons t ts => treeGuids t ++ forestGuids ts
end

mutual
/-- Every job appended by a successful `alloc_solvers` descent is
rooted at a node of the subtree it descended into. -/
theorem alloc_solvers_ok_roots (marks : Marked) (oracle : Alloc)
    (ctx : Option (List Nat)) (t : Tree) (anc : List NodeData) (k : Nat)
    (js : List Job) (ctx' : Option (List Nat)) (k' : Nat)
    (h : alloc_solvers marks oracle ctx t anc k = .ok js ctx' k') :
    ∀ j ∈ js, j.rootGuid ∈ treeGuids t := by
  cases t with
  | mk d cs =>
    rw [alloc_solvers] at h
    cases hfind : btreeFind marks d.guid with
    | none =>
      simp only [hfind, alloc_dispatch.eq_def, PRes.ok.injEq] at h
      obtain ⟨h1, -, -⟩ := h
      subst h1
      intro j hj
      exact absurd hj (List.not_mem_nil j)
    | some mk =>
      rw [hfind] at h
      cases mk with
      | SECTION =>
        simp only [alloc_dispatch.eq_def] at h
        intro j hj
        simp only [treeGuids]
        exact List.mem_cons_of_mem _
          (alloc_forest_ok_roots marks oracle ctx cs (d :: anc) k js ctx' k' h
            j hj)
      | END =>
        cases ctx with
        | none =>
          simp only [alloc_dispatch.eq_def] at h
          exact PRes.noConfusion h
        | some ls =>
          simp only [alloc_dispatch.eq_def] at h
          by_cases ho : oracle k = true
          · rw [if_pos ho] at h
            intro j hj
            simp only [treeGuids]
            exact List.mem_cons_of_mem _
              (alloc_forest_ok_roots marks oracle (some (ls ++ [d.guid])) cs
                (d :: anc) (k + 1) js ctx' k' h j hj)
          · rw [if_neg ho] at h
            exact PRes.noConfusion h
      | BEGIN =>
        simp only [alloc_dispatch.eq_def] at h
        cases hrec : recurse_with_new_subtree marks oracle d cs anc k with
        | crash js0 => simp only [hrec] at h; exact PRes.noConfusion h
        | fail js0 => simp only [hrec] at h; exact PRes.noConfusion h
        | ok js0 c0 k0 =>
          simp only [hrec, PRes.ok.injEq] at h
          obtain ⟨h1, -, -⟩ := h
          subst h1
          obtain ⟨inner, own, hsplit, hown, hmem⟩ :=
            recurse_ok_shape marks oracle d cs anc k js0 c0 k0 hrec
          intro j hj
          rw [hsplit] at hj
          simp only [treeGuids]
          rcases List.mem_append.mp hj with hj' | hj'
          · exact List.mem_cons_of_mem _ (hmem j hj')
          · simp only [List.mem_singleton] at hj'
            subst hj'
            rw [hown]
            exact List.mem_cons_self d.guid (forestGuids cs)
      | BEGIN_AND_END =>
        cases ctx with
        | none =>
          simp only [alloc_dispatch.eq_def] at h
          exact PRes.noConfusion h
        | some ls =>
          simp only [alloc_dispatch.eq_def] at h
          by_cases ho : oracle k = true
          · rw [if_pos ho] at h
            cases hrec : recurse_with_new_subtree marks oracle d cs anc (k + 1) with
            | crash js0 => simp only [hrec] at h; exact PRes.noConfusion h
            | fail js0 => simp only [hrec] at h; exact PRes.noConfusion h
            | ok js0 c0 k0 =>
              simp only [hrec, PRes.ok.injEq] at h
              obtain ⟨h1, -, -⟩ := h
              subst h1
              obtain ⟨inner, own, hsplit, hown, hmem⟩ :=
                recurse_ok_shape marks oracle d cs anc (k + 1) js0 c0 k0 hrec
              intro j hj
              rw [hsplit] at hj
              simp only [treeGuids]
              rcases List.mem_append.mp hj with hj' | hj'
              · exact List.mem_cons_of_mem _ (hmem j hj')
              · simp only [List.mem_singleton] at hj'
                subst hj'
                rw [hown]
                exact List.mem_cons_self d.guid (forestGuids cs)
          · rw [if_neg ho] at h
            exact PRes.noConfusion h
/-- Every job appended while processing a sibling list is rooted in
that sibling list. -/
theorem alloc_forest_ok_roots (marks : Marked) (oracle : Alloc)
    (ctx : Option (List Nat)) (cs : Forest) (anc : List NodeData) (k : Nat)
    (js : List Job) (ctx' : Option (List Nat)) (k' : Nat)
    (h : alloc_forest marks oracle ctx cs anc k = .ok js ctx' k') :
    ∀ j ∈ js, j.rootGuid ∈ forestGuids cs := by
  cases cs with
  | nil =>
    rw [alloc_forest] at h
    simp only [PRes.ok.injEq] at h
    obtain ⟨h1, -, -⟩ := h
    subst h1
    intro j hj
    exact absurd hj (List.not_mem_nil j)
  | cons t ts =>
    rw [alloc_forest] at h
    cases h1 : alloc_solvers marks oracle ctx t anc k with
    | crash js1 => simp only [h1] at h; exact PRes.noConfusion h
    | fail js1 => simp only [h1] at h; exact PRes.noConfusion h
    | ok js1 c1 k1 =>
      simp only [h1] at h
      cases h2 : alloc_forest marks oracle c1 ts anc k1 with
      | crash js2 => simp only [h2] at h; exact PRes.noConfusion h
      | fail js2 => simp only [h2] at h; exact PRes.noConfusion h
      | ok js2 c2 k2 =>
        simp only [h2, PRes.ok.injEq] at h
        obtain ⟨h3, -, -⟩ := h
        subst h3
        intro j hj
        simp only [forestGuids]
        rcases List.mem_append.mp hj with hj' | hj'
        · exact List.mem_append_left _
            (alloc_solvers_ok_roots marks oracle ctx t anc k js1 c1 k1 h1 j hj')
        · exact List.mem_append_right _
            (alloc_forest_ok_roots marks oracle c1 ts anc k1 js2 c2 k2 h2 j hj')
/-- A successful `recurse_with_new_subtree` appends the jobs of the
subtrees nested inside first and its own job last, and every nested job
is rooted strictly inside (at a guid of the children forest). -/
theorem recurse_ok_shape (marks : Marked) (oracle : Alloc) (d : NodeData)
    (cs : Forest) (anc : List NodeData) (k : Nat)
    (js : List Job) (ctx' : Option (List Nat)) (k' : Nat)
    (h : recurse_with_new_subtree marks oracle d cs anc k = .ok js ctx' k') :
    ∃ inner own, js = inner ++ [own] ∧ own.rootGuid = d.guid ∧
      ∀ j ∈ inner, j.rootGuid ∈ forestGuids cs := by
  rw [recurse_with_new_subtree] at h
  by_cases ho : oracle k = true
  · rw [if_pos ho] at h
    cases hf : alloc_forest marks oracle (some []) cs (d :: anc) (k + 1) with
    | crash js0 => simp only [hf] at h; exact PRes.noConfusion h
    | fail js0 => simp only [hf] at h; exact PRes.noConfusion h
    | ok js0 ls0 k0 =>
      simp only [hf] at h
      cases hra : resolve_algorithm d anc with
      | none => simp only [hra] at h; exact PRes.noConfusion h
      | some alg =>
        simp only [hra] at h
        by_cases hs : oracle k0 = true
        · rw [if_pos hs] at h
          by_cases hp : oracle (k0 + 1) = true
          · rw [if_pos hp] at h
            simp only [PRes.ok.injEq] at h
            obtain ⟨h1, -, -⟩ := h
            subst h1
            exact ⟨js0, ⟨d.guid, ls0.getD [], alg⟩, rfl, rfl,
              fun j hj =>
                alloc_forest_ok_roots marks oracle (some []) cs (d :: anc)
                  (k + 1) js0 ls0 k0 hf j hj⟩
          · rw [if_neg hp] at h
            exact PRes.noConfusion h
        · rw [if_neg hs] at h
          exact PRes.noConfusion h
  · rw [if_neg ho] at h
    exact PRes.noConfusion h
end

/-- C9: a subtree job is appended to the job list only after every job
of a subtree nested inside it: a successful
`recurse_with_new_subtree` for a subtree rooted at `d` produces its own
job last, preceded exactly by the jobs produced inside its children —
each of which is rooted at a proper descendant — so every nested job
appears strictly before the enclosing subtree's job. -/
theorem C9_nested_jobs_precede_enclosing (marks : Marked) (oracle : Alloc)
    (d : NodeData) (cs : Forest) (anc : List NodeData) (k : Nat)
    (js : List Job) (ctx' : Option (List Nat)) (k' : Nat)
    (h : recurse_with_new_subtree marks oracle d cs anc k = .ok js ctx' k') :
    ∃ inner own, js = inner ++ [own] ∧ own.rootGuid = d.guid ∧
      ∀ j ∈ inner, j.rootGuid ∈ forestGuids cs :=
  recurse_ok_shape marks oracle d cs anc k js ctx' k' h

/-- C9 witness: a one-node subtree (guid 1, its own algorithm 5) under
a root with an algorithm; the produced job list is the single own job,
appended last. -/
theorem C9_nested_jobs_precede_enclosing_witness :
    recurse_with_new_subtree [] allocAlways ⟨1, some ⟨0⟩, some 5⟩ .nil
      [⟨0, none, some 9⟩] 0 = .ok [⟨1, [], 5⟩] none 3 ∧
    ∃ inner own, [(⟨1, [], 5⟩ : Job)] = inner ++ [own] ∧ own.rootGuid = 1 ∧
      ∀ j ∈ inner, j.rootGuid ∈ forestGuids .nil := by
  have h : recurse_with_new_subtree [] allocAlways ⟨1, some ⟨0⟩, some 5⟩ .nil
      [⟨0, none, some 9⟩] 0 = .ok [⟨1, [], 5⟩] none 3 := by
    simp [recurse_with_new_subtree, alloc_forest, resolve_algorithm,
      allocAlways]
  exact ⟨h, C9_nested_jobs_precede_enclosing [] allocAlways
    ⟨1, some ⟨0⟩, some 5⟩ .nil [⟨0, none, some 9⟩] 0 [⟨1, [], 5⟩] none 3 h⟩

/-- `processMark` can only fail with -1. -/
theorem processMark_error (oracle : Alloc) (m : Marked) (g : Nat)
    (nm : Marking) (k : Nat) (s : Int)
    (h : processMark oracle m g nm k = .error s) : s = -1 := by
  rw [processMark] at h
  cases hb : btreeFind m g with
  | some v => simp only [hb] at h; exact Except.noConfusion h
  | none =>
    simp only [hb] at h
    by_cases ho : oracle k = true
    · rw [if_pos ho] at h
      exact Except.noConfusion h
    · rw [if_neg ho] at h
      simp only [Except.error.injEq] at h
      exact h.symm

/-- Both error exits of the chain walk — the fatal invalid-tree
branch and the allocation-failure branch — carry the value -1. -/
theorem mark_nodes_walk_error (oracle : Alloc) :
    ∀ (fuel : Nat) (m : Marked) (t : Tree) (anc : List NodeData)
      (counter : Int) (k : Nat) (s : Int),
      mark_nodes_walk oracle fuel m t anc counter k = some (.error s) →
      s = -1 := by
  intro fuel
  induction fuel with
  | zero => intro m t anc counter k s h; exact Option.noConfusion h
  | succ n ih =>
    intro m t anc counter k s h
    simp only [mark_nodes_walk] at h
    split at h
    · simp only [Option.some.injEq, Except.error.injEq] at h
      exact h.symm
    · split at h
      · simp only [Option.some.injEq, Except.error.injEq] at h
        exact h.symm
      · split at h
        · rename_i heq
          simp only [Option.some.injEq, Except.error.injEq] at h
          subst h
          exact processMark_error oracle m t.data.guid _ k _ heq
        · split at h
          · simp at h
          · exact ih _ t anc counter _ s h

/-- `mark_nodes` can only fail with -1. -/
theorem mark_nodes_error (oracle : Alloc) (fuel : Nat) :
    ∀ (effs : List EffectorEntry) (m : Marked) (k : Nat) (s : Int),
      mark_nodes oracle fuel m effs k = some (.error s) → s = -1 := by
  intro effs
  induction effs with
  | nil =>
    intro m k s h
    rw [mark_nodes] at h
    simp at h
  | cons e0 rest ih =>
    intro m k s h
    obtain ⟨t, anc⟩ := e0
    rw [mark_nodes] at h
    cases hw : mark_nodes_walk oracle fuel m t anc
        (chain_counter_init (Tree.data t).effector) k with
    | none => simp only [hw] at h; exact Option.noConfusion h
    | some r =>
      cases r with
      | error s0 =>
        simp only [hw, Option.some.injEq, Except.error.injEq] at h
        subst h
        exact mark_nodes_walk_error oracle fuel m t anc _ k _ hw
      | ok p =>
        obtain ⟨m1, k1⟩ := p
        simp only [hw] at h
        exact ih m1 k1 s h

mutual
/-- The scanner can only fail with -1. -/
theorem find_all_effector_nodes_error (oracle : Alloc) (t : Tree)
    (anc : List NodeData) (k : Nat) (s : Int)
    (h : find_all_effector_nodes oracle t anc k = .error s) : s = -1 := by
  cases t with
  | mk d cs =>
    rw [find_all_effector_nodes] at h
    cases hf : find_all_effector_nodes_forest oracle cs (d :: anc) k with
    | error s0 =>
      simp only [hf, Except.error.injEq] at h
      subst h
      exact find_all_effector_nodes_forest_error oracle cs (d :: anc) k _ hf
    | ok p =>
      obtain ⟨l, k'⟩ := p
      simp only [hf] at h
      by_cases he : d.effector.isSome = true
      · rw [if_pos he] at h
        by_cases ho : oracle k' = true
        · rw [if_pos ho] at h
          exact Except.noConfusion h
        · rw [if_neg ho] at h
          simp only [Except.error.injEq] at h
          exact h.symm
      · rw [if_neg he] at h
        exact Except.noConfusion h
/-- The scanner fold can only fail with -1. -/
theorem find_all_effector_nodes_forest_error (oracle : Alloc) (cs : Forest)
    (anc : List NodeData) (k : Nat) (s : Int)
    (h : find_all_effector_nodes_forest oracle cs anc k = .error s) :
    s = -1 := by
  cases cs with
  | nil =>
    rw [find_all_effector_nodes_forest] at h
    exact Except.noConfusion h
  | cons t ts =>
    rw [find_all_effector_nodes_forest] at h
    cases h1 : find_all_effector_nodes oracle t anc k with
    | error s0 =>
      simp only [h1, Except.error.injEq] at h
      subst h
      exact find_all_effector_nodes_error oracle t anc k _ h1
    | ok p =>
      obtain ⟨l, k'⟩ := p
      simp only [h1] at h
      cases h2 : find_all_effector_nodes_forest oracle ts anc k' with
      | error s0 =>
        simp only [h2, Except.error.injEq] at h
        subst h
        exact find_all_effector_nodes_forest_error oracle ts anc k' _ h2
      | ok p2 =>
        obtain ⟨l2, k2⟩ := p2
        simp only [h2] at h
        exact Except.noConfusion h
end

/-- The initial counter is never zero: a zero chain length becomes -1
(unbounded) and a nonzero one stays positive. -/
theorem chain_counter_init_ne_zero (eo : Option Effector) :
    chain_counter_init eo ≠ 0 := by
  cases eo with
  | none => decide
  | some e =>
    rw [chain_counter_init]
    by_cases h : e.chain_length = 0
    · rw [if_pos h]; decide
    · rw [if_neg h]; exact_mod_cast h

/-- Under any allocation oracle, a walk whose node has a parent and
whose counter is nonzero never returns successfully (it either loops
out of fuel or hits an error exit). -/
theorem mark_nodes_walk_not_ok (oracle : Alloc) :
    ∀ (fuel : Nat) (m : Marked) (t : Tree) (anc : List NodeData)
      (counter : Int) (k : Nat) (r : Marked × Nat),
      anc ≠ [] → counter ≠ 0 →
      mark_nodes_walk oracle fuel m t anc counter k ≠ some (.ok r) := by
  intro fuel
  induction fuel with
  | zero => intro m t anc counter k r _ _ h; exact Option.noConfusion h
  | succ n ih =>
    intro m t anc counter k r ha hc h
    have he : is_end_of_chain counter anc = false := is_end_of_chain_false hc ha
    simp only [mark_nodes_walk, he, Bool.false_eq_true, if_false] at h
    split at h
    · simp at h
    · split at h
      · simp at h
      · split at h
        · simp at h
        · exact ih _ t anc counter _ r ha hc h

/-- A successful `mark_nodes` implies every processed effector entry
had an empty ancestor list, i.e. was the tree root (the chain walk
never returns successfully from any other node). -/
theorem mark_nodes_ok_entries (oracle : Alloc) (fuel : Nat) :
    ∀ (effs : List EffectorEntry) (m : Marked) (k : Nat) (r : Marked × Nat),
      mark_nodes oracle fuel m effs k = some (.ok r) →
      ∀ e ∈ effs, e.2 = ([] : List NodeData) := by
  intro effs
  induction effs with
  | nil => intro m k r _ e he; exact absurd he (List.not_mem_nil e)
  | cons e0 rest ih =>
    intro m k r h e he
    obtain ⟨t, anc⟩ := e0
    rw [mark_nodes] at h
    cases hw : mark_nodes_walk oracle fuel m t anc
        (chain_counter_init (Tree.data t).effector) k with
    | none => simp only [hw] at h; exact Option.noConfusion h
    | some r0 =>
      cases r0 with
      | error s => simp only [hw] at h; simp at h
      | ok p =>
        obtain ⟨m1, k1⟩ := p
        simp only [hw] at h
        rcases List.mem_cons.mp he with he0 | hrest
        · subst he0
          show anc = []
          by_contra hne
          exact mark_nodes_walk_not_ok oracle fuel m t anc _ k (m1, k1) hne
            (chain_counter_init_ne_zero (Tree.data t).effector) hw
        · exact ih m1 k1 r h e hrest

mutual
/-- Every entry collected by the scanner carries an effector, and is
either the scanned node itself (with exactly the given ancestor list)
or lies strictly deeper. -/
theorem find_mem_tree (oracle : Alloc) (t : Tree) (anc : List NodeData)
    (k : Nat) (l : List EffectorEntry) (k' : Nat)
    (h : find_all_effector_nodes oracle t anc k = .ok (l, k')) :
    ∀ e ∈ l, (e.1).data.effector.isSome = true ∧
      (anc.length < e.2.length ∨ (e.1 = t ∧ e.2 = anc)) := by
  cases t with
  | mk d cs =>
    rw [find_all_effector_nodes] at h
    cases hf : find_all_effector_nodes_forest oracle cs (d :: anc) k with
    | error s0 => simp only [hf] at h; exact Except.noConfusion h
    | ok p =>
      obtain ⟨l0, k0⟩ := p
      simp only [hf] at h
      by_cases he : d.effector.isSome = true
      · rw [if_pos he] at h
        by_cases ho : oracle k0 = true
        · rw [if_pos ho] at h
          simp only [Except.ok.injEq, Prod.mk.injEq] at h
          obtain ⟨h1, -⟩ := h
          intro e hel
          rw [← h1] at hel
          rcases List.mem_append.mp hel with h0 | h0
          · obtain ⟨hsome, hlen⟩ :=
              find_mem_forest oracle cs (d :: anc) k l0 k0 hf e h0
            exact ⟨hsome, Or.inl (lt_of_lt_of_le (Nat.lt_succ_self anc.length) hlen)⟩
          · simp only [List.mem_singleton] at h0
            subst h0
            exact ⟨he, Or.inr ⟨rfl, rfl⟩⟩
        · rw [if_neg ho] at h
          exact Except.noConfusion h
      · rw [if_neg he] at h
        simp only [Except.ok.injEq, Prod.mk.injEq] at h
        obtain ⟨h1, -⟩ := h
        intro e hel
        rw [← h1] at hel
        obtain ⟨hsome, hlen⟩ :=
          find_mem_forest oracle cs (d :: anc) k l0 k0 hf e hel
        exact ⟨hsome, Or.inl (lt_of_lt_of_le (Nat.lt_succ_self anc.length) hlen)⟩
/-- Every entry collected while scanning a forest carries an effector
and lies at or below the forest's depth. -/
theorem find_mem_forest (oracle : Alloc) (cs : Forest) (anc : List NodeData)
    (k : Nat) (l : List EffectorEntry) (k' : Nat)
    (h : find_all_effector_nodes_forest oracle cs anc k = .ok (l, k')) :
    ∀ e ∈ l, (e.1).data.effector.isSome = true ∧ anc.length ≤ e.2.length := by
  cases cs with
  | nil =>
    rw [find_all_effector_nodes_forest] at h
    simp only [Except.ok.injEq, Prod.mk.injEq] at h
    obtain ⟨h1, -⟩ := h
    intro e hel
    rw [← h1] at hel
    exact absurd hel (List.not_mem_nil e)
  | cons t ts =>
    rw [find_all_effector_nodes_forest] at h
    cases h1 : find_all_effector_nodes oracle t anc k with
    | error s0 => simp only [h1] at h; exact Except.noConfusion h
    | ok p =>
      obtain ⟨l1, k1⟩ := p
      simp only [h1] at h
      cases h2 : find_all_effector_nodes_forest oracle ts anc k1 with
      | error s0 => simp only [h2] at h; exact Except.noConfusion h
      | ok p2 =>
        obtain ⟨l2, k2⟩ := p2
        simp only [h2, Except.ok.injEq, Prod.mk.injEq] at h
        obtain ⟨h3, -⟩ := h
        intro e hel
        rw [← h3] at hel
        rcases List.mem_append.mp hel with h0 | h0
        · obtain ⟨hsome, hor⟩ := find_mem_tree oracle t anc k l1 k1 h1 e h0
          refine ⟨hsome, ?_⟩
          rcases hor with hlt | ⟨-, hanc⟩
          · exact le_of_lt hlt
          · rw [hanc]
        · exact find_mem_forest oracle ts anc k1 l2 k2 h2 e h0
end

/-- At the end of a chain (`E = 1`) an effector-bearing node is always
classified `MARK_END` or `MARK_BEGIN_AND_END`. -/
theorem lookupMark_root :
    ∀ c a : Bool,
      lookupMark (markIdx true c true a) = some Marking.END ∨
      lookupMark (markIdx true c true a) = some Marking.BEGIN_AND_END := by
  decide

/-- Merging an END/BEGIN_AND_END mark into a map whose entry for the
key (if any) is END/BEGIN_AND_END keeps the entry in that set, and the
key ends up present. -/
theorem processMark_ok_find (oracle : Alloc) (m : Marked) (g : Nat)
    (nm : Marking) (k : Nat) (m1 : Marked) (k1 : Nat)
    (hnm : nm = .END ∨ nm = .BEGIN_AND_END)
    (hq : ∀ v, btreeFind m g = some v → v = .END ∨ v = .BEGIN_AND_END)
    (hp : processMark oracle m g nm k = .ok (m1, k1)) :
    ∃ v, btreeFind m1 g = some v ∧ (v = .END ∨ v = .BEGIN_AND_END) := by
  rw [processMark] at hp
  cases hfind : btreeFind m g with
  | some v0 =>
    simp only [hfind] at hp
    have hns : ¬ nm = Marking.SECTION := by
      rcases hnm with h | h <;> subst h <;> exact fun hc => Marking.noConfusion hc
    rw [if_neg hns] at hp
    simp only [Except.ok.injEq, Prod.mk.injEq] at hp
    obtain ⟨h1, -⟩ := hp
    subst h1
    exact ⟨v0, hfind, hq v0 hfind⟩
  | none =>
    simp only [hfind] at hp
    by_cases ho : oracle k = true
    · rw [if_pos ho] at hp
      simp only [Except.ok.injEq, Prod.mk.injEq] at hp
      obtain ⟨h1, -⟩ := hp
      subst h1
      exact ⟨nm, by simp [btreeFind], hnm⟩
    · rw [if_neg ho] at hp
      exact Except.noConfusion hp

/-- A successful walk started at the tree root (no ancestors) leaves
the root's guid mapped to `MARK_END` or `MARK_BEGIN_AND_END`, provided
any pre-existing entry was already in that set. -/
theorem walk_root_ok_find (oracle : Alloc) (fuel : Nat) (m : Marked)
    (t : Tree) (counter : Int) (k : Nat) (m' : Marked) (k' : Nat)
    (hf : (Tree.data t).effector.isSome = true)
    (hq : ∀ v, btreeFind m (Tree.data t).guid = some v →
      v = .END ∨ v = .BEGIN_AND_END)
    (h : mark_nodes_walk oracle fuel m t [] counter k = some (.ok (m', k'))) :
    ∃ v, btreeFind m' (Tree.data t).guid = some v ∧
      (v = .END ∨ v = .BEGIN_AND_END) := by
  cases fuel with
  | zero => exact Option.noConfusion h
  | succ n =>
    have he : is_end_of_chain counter [] = true := by
      simp [is_end_of_chain]
    obtain ⟨hnf, -⟩ :=
      lookupMark_effector true (!(Tree.children t).isNil)
        ((Tree.data t).algorithm.isSome)
    simp only [mark_nodes_walk, he, hf, hnf, Bool.false_eq_true, if_false,
      if_true] at h
    obtain ⟨nm, hnm, hnmP⟩ :
        ∃ nm, lookupMark (markIdx true (!(Tree.children t).isNil) true
          ((Tree.data t).algorithm.isSome)) = some nm ∧
          (nm = Marking.END ∨ nm = Marking.BEGIN_AND_END) := by
      rcases lookupMark_root (!(Tree.children t).isNil)
          ((Tree.data t).algorithm.isSome) with hl | hl
      · exact ⟨Marking.END, hl, Or.inl rfl⟩
      · exact ⟨Marking.BEGIN_AND_END, hl, Or.inr rfl⟩
    simp only [hnm] at h
    cases hp : processMark oracle m (Tree.data t).guid nm k with
    | error s0 => simp only [hp] at h; simp at h
    | ok p =>
      obtain ⟨m1, k1⟩ := p
      simp only [hp, Option.some.injEq, Except.ok.injEq, Prod.mk.injEq] at h
      obtain ⟨h1, -⟩ := h
      subst h1
      exact processMark_ok_find oracle m (Tree.data t).guid nm k m1 k1
        hnmP hq hp

/-- Folding successful root walks over a list of entries that are all
the root leaves the root's guid marked `MARK_END` or
`MARK_BEGIN_AND_END`. -/
theorem mark_nodes_root_find (oracle : Alloc) (fuel : Nat) (rt : Tree)
    (hf : (Tree.data rt).effector.isSome = true) :
    ∀ (effs : List EffectorEntry) (m : Marked) (k : Nat) (m' : Marked)
      (k' : Nat),
      (∀ e ∈ effs, e.1 = rt ∧ e.2 = ([] : List NodeData)) →
      (∀ v, btreeFind m (Tree.data rt).guid = some v →
        v = .END ∨ v = .BEGIN_AND_END) →
      effs ≠ [] →
      mark_nodes oracle fuel m effs k = some (.ok (m', k')) →
      ∃ v, btreeFind m' (Tree.data rt).guid = some v ∧
        (v = .END ∨ v = .BEGIN_AND_END) := by
  intro effs
  induction effs with
  | nil => intro m k m' k' _ _ hne _; exact absurd rfl hne
  | cons e0 rest ih =>
    intro m k m' k' hall hq _ h
    obtain ⟨t, anc⟩ := e0
    obtain ⟨ht, hanc⟩ := hall (t, anc) (List.mem_cons_self _ _)
    simp only at ht hanc
    subst ht
    subst hanc
    rw [mark_nodes] at h
    cases hw : mark_nodes_walk oracle fuel m t []
        (chain_counter_init (Tree.data t).effector) k with
    | none => simp only [hw] at h; exact Option.noConfusion h
    | some r0 =>
      cases r0 with
      | error s => simp only [hw] at h; simp at h
      | ok p =>
        obtain ⟨m1, k1⟩ := p
        simp only [hw] at h
        obtain ⟨v, hv, hvP⟩ := walk_root_ok_find oracle fuel m t _ k m1 k1 hf hq hw
        cases rest with
        | nil =>
          rw [mark_nodes] at h
          simp only [Option.some.injEq, Except.ok.injEq, Prod.mk.injEq] at h
          obtain ⟨h1, -⟩ := h
          subst h1
          exact ⟨v, hv, hvP⟩
        | cons e1 rest' =>
          refine ih m1 k1 m' k'
            (fun e he => hall e (List.mem_cons_of_mem _ he)) ?_ (by simp) h
          intro v' hv'
          have hvv : v = v' := by
            have := hv.symm.trans hv'
            exact Option.some.inj this
          rw [← hvv]
          exact hvP

/-- Starting the partition at the tree root with a NULL current
subtree, a root marked `MARK_END` or `MARK_BEGIN_AND_END` crashes
immediately (failed assert / NULL dereference). -/
theorem alloc_solvers_root_crash (marks : Marked) (oracle : Alloc)
    (t : Tree) (k : Nat) (v : Marking)
    (hfind : btreeFind marks (Tree.data t).guid = some v)
    (hv : v = .END ∨ v = .BEGIN_AND_END) :
    alloc_solvers marks oracle none t [] k = .crash [] := by
  cases t with
  | mk d cs =>
    simp only [Tree.data] at hfind
    rw [alloc_solvers]
    rcases hv with hv | hv <;> subst hv <;>
      simp [hfind, alloc_dispatch.eq_def]

/-- C2 (amended): every failure of `ik_joblist_update` that is
surfaced as an error return — allocation failures during setup,
scanning or marking, the no-effectors case, and any marking failure —
occurs before the old jobs are discarded and leaves the previous job
sequence untouched; a partition-phase failure, by contrast, happens
after the old jobs have been freed (the counterexample shows a crash
with the previous jobs already discarded), so atomicity holds only up
to the end of marking. -/
theorem C2_error_returns_leave_previous_jobs (fuel : Nat) (oracle : Alloc)
    (root : Tree) (prev : List Job) (s : Int) (jl : List Job)
    (h : ik_joblist_update fuel oracle root prev = some (.ret s jl))
    (_hs : s ≠ IK_OK) : jl = prev := by
  rw [ik_joblist_update] at h
  by_cases h0 : oracle 0 = true
  · rw [if_pos h0] at h
    cases hscan : find_all_effector_nodes oracle root [] 1 with
    | error s0 =>
      simp only [hscan, Option.some.injEq, UResult.ret.injEq] at h
      exact h.2.symm
    | ok p =>
      obtain ⟨effs, k⟩ := p
      simp only [hscan] at h
      by_cases hemp : effs.isEmpty = true
      · rw [if_pos hemp] at h
        simp only [Option.some.injEq, UResult.ret.injEq] at h
        exact h.2.symm
      · rw [if_neg hemp] at h
        by_cases hb : oracle k = true
        · rw [if_pos hb] at h
          cases hmk : mark_nodes oracle fuel [] effs (k + 1) with
          | none => simp only [hmk] at h; exact Option.noConfusion h
          | some r =>
            cases r with
            | error s0 =>
              simp only [hmk, Option.some.injEq, UResult.ret.injEq] at h
              exact h.2.symm
            | ok p2 =>
              obtain ⟨marks, k2⟩ := p2
              simp only [hmk] at h
              have hanc := mark_nodes_ok_entries oracle fuel effs [] (k + 1)
                (marks, k2) hmk
              have hne : effs ≠ [] := by
                intro hE
                rw [hE] at hemp
                exact hemp rfl
              have hallroot : ∀ e ∈ effs, e.1 = root ∧ e.2 = ([] : List NodeData) := by
                intro e he
                have ha := hanc e he
                obtain ⟨-, hor⟩ := find_mem_tree oracle root [] 1 effs k hscan e he
                refine ⟨?_, ha⟩
                rcases hor with hlt | ⟨hr, -⟩
                · rw [ha] at hlt
                  exact absurd hlt (by simp)
                · exact hr
              have hfr : (Tree.data root).effector.isSome = true := by
                obtain ⟨e0, he0⟩ := List.exists_mem_of_ne_nil effs hne
                obtain ⟨hsome, -⟩ := find_mem_tree oracle root [] 1 effs k hscan e0 he0
                have hr := (hallroot e0 he0).1
                rw [hr] at hsome
                exact hsome
              obtain ⟨v, hv, hvP⟩ :=
                mark_nodes_root_find oracle fuel root hfr effs [] (k + 1)
                  marks k2 hallroot
                  (fun v hv => absurd hv (by simp [btreeFind])) hne hmk
              have hcrash :=
                alloc_solvers_root_crash marks oracle root k2 v hv hvP
              simp only [hcrash] at h
              simp at h
        · rw [if_neg hb] at h
          simp only [Option.some.injEq, UResult.ret.injEq] at h
          exact h.2.symm
  · rw [if_neg h0] at h
    simp only [Option.some.injEq, UResult.ret.injEq] at h
    exact h.2.symm

/-- C2 amended witness: a no-effectors rebuild against a nonempty
previous job list returns an error status and leaves the list equal to
its previous contents. -/
theorem C2_error_returns_leave_previous_jobs_witness :
    ik_joblist_update 1 allocAlways leafNoEffector [⟨7, [], 1⟩] =
      some (.ret IK_ERR_NO_EFFECTORS_FOUND [⟨7, [], 1⟩]) ∧
    IK_ERR_NO_EFFECTORS_FOUND ≠ IK_OK ∧
    ([⟨7, [], 1⟩] : List Job) = [⟨7, [], 1⟩] := by
  have h : ik_joblist_update 1 allocAlways leafNoEffector [⟨7, [], 1⟩] =
      some (.ret IK_ERR_NO_EFFECTORS_FOUND [⟨7, [], 1⟩]) := by
    simp [ik_joblist_update, allocAlways, leafNoEffector,
      find_all_effector_nodes, find_all_effector_nodes_forest]
  refine ⟨h, by decide, ?_⟩
  exact C2_error_returns_leave_previous_jobs 1 allocAlways leafNoEffector
    [⟨7, [], 1⟩] IK_ERR_NO_EFFECTORS_FOUND [⟨7, [], 1⟩] h (by decide)

/-- C5 (amended): `ik_joblist_update` returns only `IK_OK`,
`IK_ERR_OUT_OF_MEMORY` (for its own two initial allocations),
`IK_ERR_NO_EFFECTORS_FOUND`, or the single generic value -1 shared by
every failure propagated from scanning, marking (both the fatal
invalid-configuration branch and allocation failure) and partitioning
(both the no-algorithm case and allocation failure); no five-way
distinction exists. -/
theorem C5_update_status_range (fuel : Nat) (oracle : Alloc) (root : Tree)
    (prev : List Job) (s : Int) (jl : List Job)
    (h : ik_joblist_update fuel oracle root prev = some (.ret s jl)) :
    s = IK_OK ∨ s = IK_ERR_OUT_OF_MEMORY ∨ s = IK_ERR_NO_EFFECTORS_FOUND ∨
      s = -1 := by
  rw [ik_joblist_update] at h
  by_cases h0 : oracle 0 = true
  · rw [if_pos h0] at h
    cases hscan : find_all_effector_nodes oracle root [] 1 with
    | error s0 =>
      simp only [hscan, Option.some.injEq, UResult.ret.injEq] at h
      right; right; right
      rw [← h.1]
      exact find_all_effector_nodes_error oracle root [] 1 s0 hscan
    | ok p =>
      obtain ⟨effs, k⟩ := p
      simp only [hscan] at h
      by_cases hemp : effs.isEmpty = true
      · rw [if_pos hemp] at h
        simp only [Option.some.injEq, UResult.ret.injEq] at h
        right; right; left
        exact h.1.symm
      · rw [if_neg hemp] at h
        by_cases hb : oracle k = true
        · rw [if_pos hb] at h
          cases hmk : mark_nodes oracle fuel [] effs (k + 1) with
          | none => simp only [hmk] at h; exact Option.noConfusion h
          | some r =>
            cases r with
            | error s0 =>
              simp only [hmk, Option.some.injEq, UResult.ret.injEq] at h
              right; right; right
              rw [← h.1]
              exact mark_nodes_error oracle fuel effs [] (k + 1) s0 hmk
            | ok p2 =>
              obtain ⟨marks, k2⟩ := p2
              simp only [hmk] at h
              cases hal : alloc_solvers marks oracle none root [] k2 with
              | crash js =>
                rw [hal] at h
                simp at h
              | fail js =>
                rw [hal] at h
                simp only [Option.some.injEq, UResult.ret.injEq] at h
                right; right; right
                exact h.1.symm
              | ok js c2 k3 =>
                rw [hal] at h
                simp only [Option.some.injEq, UResult.ret.injEq] at h
                left
                exact h.1.symm
        · rw [if_neg hb] at h
          simp only [Option.some.injEq, UResult.ret.injEq] at h
          right; left
          exact h.1.symm
  · rw [if_neg h0] at h
    simp only [Option.some.injEq, UResult.ret.injEq] at h
    right; left
    exact h.1.symm

/-- C5 amended witness: a concrete run (the no-effectors case) whose
status is one of the four values. -/
theorem C5_update_status_range_witness :
    ik_joblist_update 1 allocAlways leafNoEffector [] =
      some (.ret IK_ERR_NO_EFFECTORS_FOUND []) ∧
    (IK_ERR_NO_EFFECTORS_FOUND = IK_OK ∨
     IK_ERR_NO_EFFECTORS_FOUND = IK_ERR_OUT_OF_MEMORY ∨
     IK_ERR_NO_EFFECTORS_FOUND = IK_ERR_NO_EFFECTORS_FOUND ∨
     IK_ERR_NO_EFFECTORS_FOUND = -1) := by
  have h : ik_joblist_update 1 allocAlways leafNoEffector [] =
      some (.ret IK_ERR_NO_EFFECTORS_FOUND []) := by
    simp [ik_joblist_update, allocAlways, leafNoEffector,
      find_all_effector_nodes, find_all_effector_nodes_forest]
  exact ⟨h, C5_update_status_range 1 allocAlways leafNoEffector []
    IK_ERR_NO_EFFECTORS_FOUND [] h⟩

end Ik
